import Mathlib

/-!
Verification of the ringmpsc SPSC ring-buffer benchmark.

The ring engine (StackRing) is not shipped under src/; only its driver
bench.rs is.  The engine is therefore modelled from the specification
(sections 3 and 4), while the benchmark driver loops (run_test,
pin_to_cpu) are embedded from src/rust_impl/src/bin/bench.rs.
-/

namespace RingMpsc

/-- Modelled from the spec: the StackRing state.  Section 3 gives N
contiguous slots (N a power of two), a producer-owned write cursor and a
consumer-owned read cursor (unsigned, monotonically increasing, physical
slot index = cursor value modulo N via bitwise mask), and a write-once
closed flag.  Storage is a total map from physical index to element. -/
structure StackRing (N : Nat) where
  storage : Nat → Nat
  write : Nat
  read : Nat
  closed : Bool

/-- Modelled from the spec: a freshly constructed ring — both cursors at
zero, not closed, slots default-initialized. -/
def StackRing.new (N : Nat) : StackRing N :=
  { storage := fun _ => 0, write := 0, read := 0, closed := false }

/-- Modelled from the spec (section 4.2): available free space,
N - (write_cursor - read_cursor). -/
def avail (N : Nat) (s : StackRing N) : Nat :=
  N - (s.write - s.read)

/-- Modelled from the spec (section 4.2): contiguous_until_wrap =
N - (write_cursor & (N-1)). -/
def contiguousUntilWrap (N : Nat) (s : StackRing N) : Nat :=
  N - (s.write &&& (N - 1))

/-- Modelled from the spec (section 4.2): reserve(request_len).  If
available = 0 return nothing; otherwise return the physical span start
write & (N-1) and granted_len = min(request_len, available,
contiguous_until_wrap). -/
def reserve (N : Nat) (s : StackRing N) (request_len : Nat) :
    Option (Nat × Nat) :=
  if avail N s = 0 then none
  else some (s.write &&& (N - 1),
             min request_len (min (avail N s) (contiguousUntilWrap N s)))

/-- Modelled from the spec (section 4.2): commit(written_len) advances the
write cursor by written_len. -/
def commit (N : Nat) (s : StackRing N) (written_len : Nat) : StackRing N :=
  { s with write := s.write + written_len }

/-- Modelled from the spec (section 4.2): close() sets the closed flag. -/
def close (N : Nat) (s : StackRing N) : StackRing N :=
  { s with closed := true }

/-- Modelled from the spec (section 4.3): is_closed() reads the closed
flag. -/
def is_closed (N : Nat) (s : StackRing N) : Bool :=
  s.closed

/-- Modelled from the spec (section 4.3): is_empty() is true iff
read_cursor = write_cursor. -/
def is_empty (N : Nat) (s : StackRing N) : Bool :=
  s.read == s.write

/-- Writing a list of values into physical slots base, base+1, ...
(reduced modulo N), as the producer does through the span address returned
by reserve. -/
def writeVals (N : Nat) (st : Nat → Nat) (base : Nat) :
    List Nat → (Nat → Nat)
  | [] => st
  | v :: vs => writeVals N (Function.update st (base % N) v) (base + 1) vs

/-- Modelled from the spec (section 4.3): consume_batch loads the write
cursor, takes available = write - read; if zero it returns immediately
with count 0; otherwise it processes min(available, contiguous run up to
the physical wrap boundary) elements in ascending logical order and
advances the read cursor by that count.  The result is the new ring state
together with the list of element values delivered to the action, in
delivery order. -/
def consumeBatch (N : Nat) (s : StackRing N) : StackRing N × List Nat :=
  if s.write - s.read = 0 then (s, [])
  else
    let n := min (s.write - s.read) (N - (s.read &&& (N - 1)))
    ({ s with read := s.read + n },
     (List.range n).map (fun i => s.storage ((s.read &&& (N - 1)) + i)))

/-- The committed-but-unconsumed elements currently held by the ring, in
logical (FIFO) order. -/
def buffered (N : Nat) (s : StackRing N) : List Nat :=
  (List.range (s.write - s.read)).map (fun i => s.storage ((s.read + i) % N))

/-- A ring state is well formed when the read cursor has not passed the
write cursor and at most N elements are in flight (spec section 3
invariants). -/
def WF (N : Nat) (s : StackRing N) : Prop :=
  s.read ≤ s.write ∧ s.write - s.read ≤ N

theorem mask_eq_mod (k x : Nat) : x &&& (2 ^ k - 1) = x % 2 ^ k :=
  Nat.and_pow_two_sub_one_eq_mod x k

/-- The concrete wraparound scenario of the spec: capacity 8, write
cursor physically at offset 6 (ring currently empty after six elements
were produced and consumed). -/
def wrapState : StackRing 8 :=
  { storage := fun _ => 0, write := 6, read := 6, closed := false }

/-- C1: for every reserve call with request length r at least 1 on a ring
of power-of-two capacity, the granted length equals
min(r, free space, distance from the physical write offset to the end of
the array); hence the grant never exceeds r, never exceeds free space,
and the granted span never crosses the physical array boundary.  In the
concrete wraparound scenario (capacity 8, write cursor at physical
offset 6), reserve 5 grants exactly 2, and after commit 2 a following
reserve 3 grants exactly 3 starting at physical offset 0. -/
theorem C1_reserve_grant_bounds (k : Nat) (s : StackRing (2 ^ k)) (r : Nat)
    (hr : 1 ≤ r) (hwf : WF (2 ^ k) s) :
    (∀ idx g, reserve (2 ^ k) s r = some (idx, g) →
      g = min r (min (avail (2 ^ k) s) (contiguousUntilWrap (2 ^ k) s)) ∧
      g ≤ r ∧ g ≤ avail (2 ^ k) s ∧ idx + g ≤ 2 ^ k) ∧
    reserve 8 wrapState 5 = some (6, 2) ∧
    reserve 8 (commit 8 wrapState 2) 3 = some (0, 3) := by
  refine ⟨?_, by decide, by decide⟩
  intro idx g hres
  unfold reserve at hres
  by_cases h0 : avail (2 ^ k) s = 0
  · simp [h0] at hres
  · simp [h0] at hres
    obtain ⟨hidx, hg⟩ := hres
    refine ⟨hg.symm, ?_, ?_, ?_⟩
    · omega
    · omega
    · have hmask : s.write &&& (2 ^ k - 1) = s.write % 2 ^ k :=
        mask_eq_mod k s.write
      have hcw : contiguousUntilWrap (2 ^ k) s = 2 ^ k - s.write % 2 ^ k := by
        unfold contiguousUntilWrap
        rw [hmask]
      have hlt : s.write % 2 ^ k < 2 ^ k :=
        Nat.mod_lt _ (Nat.pos_pow_of_pos k (by norm_num))
      have hgc : g ≤ contiguousUntilWrap (2 ^ k) s := by omega
      rw [hcw] at hgc
      rw [← hidx]
      omega

/-- Witness for C1 at capacity 2^3 on a fresh ring with request 1. -/
theorem C1_reserve_grant_bounds_witness :
    (∀ idx g, reserve (2 ^ 3) (StackRing.new (2 ^ 3)) 1 = some (idx, g) →
      g = min 1 (min (avail (2 ^ 3) (StackRing.new (2 ^ 3)))
        (contiguousUntilWrap (2 ^ 3) (StackRing.new (2 ^ 3)))) ∧
      g ≤ 1 ∧ g ≤ avail (2 ^ 3) (StackRing.new (2 ^ 3)) ∧ idx + g ≤ 2 ^ 3) ∧
    reserve 8 wrapState 5 = some (6, 2) ∧
    reserve 8 (commit 8 wrapState 2) 3 = some (0, 3) :=
  C1_reserve_grant_bounds 3 (StackRing.new (2 ^ 3)) 1 (by decide)
    ⟨by simp [StackRing.new], by simp [StackRing.new]⟩

theorem mod_ne_of_between (a b N : Nat) (hab : a < b) (h : b < a + N) :
    a % N ≠ b % N := by
  intro heq
  have hmod : a ≡ b [MOD N] := heq
  have hdvd : N ∣ b - a := (Nat.modEq_iff_dvd' (Nat.le_of_lt hab)).mp hmod
  have hle : N ≤ b - a := Nat.le_of_dvd (by omega) hdvd
  omega

theorem writeVals_ne (N : Nat) (st : Nat → Nat) (vals : List Nat)
    (base p : Nat) (h : ∀ j, j < vals.length → p ≠ (base + j) % N) :
    writeVals N st base vals p = st p := by
  induction vals generalizing st base with
  | nil => rfl
  | cons v vs ih =>
    rw [writeVals]
    rw [ih]
    · refine Function.update_noteq ?_ v st
      have h0 := h 0 (by simp)
      simpa using h0
    · intro j hj
      have hj1 := h (j + 1) (by simp; omega)
      have harith : base + (j + 1) = base + 1 + j := by omega
      rw [harith] at hj1
      exact hj1

theorem writeVals_get (N : Nat) (st : Nat → Nat) (vals : List Nat)
    (base : Nat) (hN : 0 < N) (hlen : vals.length ≤ N)
    (j : Nat) (hj : j < vals.length) :
    writeVals N st base vals ((base + j) % N) = vals.getD j 0 := by
  induction vals generalizing st base j with
  | nil => simp at hj
  | cons v vs ih =>
    match j with
    | 0 =>
      rw [writeVals, writeVals_ne]
      · simp [Function.update]
      · intro j1 hj1
        have harith : base + 1 + j1 = base + (1 + j1) := by omega
        rw [harith]
        refine mod_ne_of_between base (base + (1 + j1)) N (by omega) ?_
        simp at hlen
        omega
    | j1 + 1 =>
      rw [writeVals]
      have harith : base + (j1 + 1) = base + 1 + j1 := by omega
      rw [harith]
      have hres := ih (Function.update st (base % N) v) (base + 1)
        (by simp at hlen; omega) j1 (by simp at hj; omega)
      simpa using hres

theorem map_getD_range (l : List Nat) :
    (List.range l.length).map (fun i => l.getD i 0) = l := by
  induction l with
  | nil => rfl
  | cons x xs ih =>
    rw [List.length_cons, List.range_succ_eq_map]
    simp only [List.map_cons, List.map_map, List.getD_cons_zero]
    have hcomp : ((fun i => (x :: xs).getD i 0) ∘ Nat.succ) =
        fun i => xs.getD i 0 := by
      funext i
      simp [Function.comp]
    rw [hcomp, ih]

theorem reserve_bounds (N : Nat) (s : StackRing N) (r idx g : Nat)
    (hres : reserve N s r = some (idx, g)) :
    g ≤ r ∧ g ≤ avail N s ∧ g ≤ contiguousUntilWrap N s ∧
    0 < avail N s ∧ idx = s.write &&& (N - 1) := by
  unfold reserve at hres
  by_cases h0 : avail N s = 0
  · simp [h0] at hres
  · simp [h0] at hres
    refine ⟨?_, ?_, ?_, by omega, hres.1.symm⟩ <;> omega

theorem buffered_produce (k : Nat) (s : StackRing (2 ^ k)) (r idx g : Nat)
    (vals : List Nat) (hres : reserve (2 ^ k) s r = some (idx, g))
    (hlen : vals.length ≤ g) (hwf : WF (2 ^ k) s) :
    buffered (2 ^ k)
      (commit (2 ^ k)
        { s with storage := writeVals (2 ^ k) s.storage idx vals }
        vals.length) =
    buffered (2 ^ k) s ++ vals := by
  have hN : 0 < 2 ^ k := Nat.pos_pow_of_pos k (by norm_num)
  obtain ⟨hgr, hga, hgc, hav, hidx⟩ := reserve_bounds _ s r idx g hres
  rw [mask_eq_mod] at hidx
  have hcw : contiguousUntilWrap (2 ^ k) s = 2 ^ k - s.write % 2 ^ k := by
    unfold contiguousUntilWrap
    rw [mask_eq_mod]
  rw [hcw] at hgc
  have hva : avail (2 ^ k) s = 2 ^ k - (s.write - s.read) := rfl
  rw [hva] at hga hav
  have hwlt : s.write % 2 ^ k < 2 ^ k := Nat.mod_lt _ hN
  obtain ⟨hwr, hcnt⟩ := hwf
  simp only [buffered, commit]
  have hsplit : s.write + vals.length - s.read =
      (s.write - s.read) + vals.length := by omega
  rw [hsplit, List.range_add, List.map_append, List.map_map]
  congr 1
  · refine List.map_congr_left ?_
    intro i hi
    rw [List.mem_range] at hi
    refine writeVals_ne _ _ _ _ _ ?_
    intro j hj hbad
    have hmod : (idx + j) % 2 ^ k = (s.write + j) % 2 ^ k := by
      rw [hidx, Nat.mod_add_mod]
    rw [hmod] at hbad
    exact mod_ne_of_between (s.read + i) (s.write + j) (2 ^ k)
      (by omega) (by omega) hbad
  · conv_rhs => rw [← map_getD_range vals]
    refine List.map_congr_left ?_
    intro i hi
    rw [List.mem_range] at hi
    simp only [Function.comp]
    have harith : s.read + (s.write - s.read + i) = s.write + i := by omega
    rw [harith]
    have hmod : (s.write + i) % 2 ^ k = (idx + i) % 2 ^ k := by
      rw [hidx, Nat.mod_add_mod]
    rw [hmod]
    exact writeVals_get (2 ^ k) s.storage vals idx hN (by omega) i hi

theorem buffered_consume (k : Nat) (s : StackRing (2 ^ k))
    (hwf : WF (2 ^ k) s) :
    buffered (2 ^ k) s =
      (consumeBatch (2 ^ k) s).2 ++
        buffered (2 ^ k) (consumeBatch (2 ^ k) s).1 := by
  have hN : 0 < 2 ^ k := Nat.pos_pow_of_pos k (by norm_num)
  obtain ⟨hwr, hcnt⟩ := hwf
  by_cases h0 : s.write - s.read = 0
  · simp [consumeBatch, h0, buffered]
  · have hrlt : s.read % 2 ^ k < 2 ^ k := Nat.mod_lt _ hN
    simp only [consumeBatch, h0, if_neg, ite_false, mask_eq_mod]
    simp only [buffered]
    have hn : min (s.write - s.read) (2 ^ k - s.read % 2 ^ k) ≤
        s.write - s.read := Nat.min_le_left _ _
    have hnc : min (s.write - s.read) (2 ^ k - s.read % 2 ^ k) ≤
        2 ^ k - s.read % 2 ^ k := Nat.min_le_right _ _
    have hsplit : s.write - s.read =
        min (s.write - s.read) (2 ^ k - s.read % 2 ^ k) +
          (s.write - (s.read +
            min (s.write - s.read) (2 ^ k - s.read % 2 ^ k))) := by omega
    conv_lhs => rw [hsplit]
    rw [List.range_add, List.map_append, List.map_map]
    congr 1
    · refine List.map_congr_left ?_
      intro i hi
      rw [List.mem_range] at hi
      have harg : (s.read + i) % 2 ^ k = s.read % 2 ^ k + i := by
        rw [← Nat.mod_add_mod]
        exact Nat.mod_eq_of_lt (by omega)
      rw [harg]
    · refine List.map_congr_left ?_
      intro i hi
      rw [List.mem_range] at hi
      simp only [Function.comp]
      have harith : s.read +
          (min (s.write - s.read) (2 ^ k - s.read % 2 ^ k) + i) =
          s.read + min (s.write - s.read) (2 ^ k - s.read % 2 ^ k) + i := by
        omega
      rw [harith]

theorem consumeBatch_write (N : Nat) (s : StackRing N) :
    ((consumeBatch N s).1).write = s.write := by
  unfold consumeBatch
  split
  · rfl
  · rfl

theorem consumeBatch_read (N : Nat) (s : StackRing N) :
    ((consumeBatch N s).1).read =
      s.read + min (s.write - s.read) (N - (s.read &&& (N - 1))) := by
  unfold consumeBatch
  split
  · next h =>
    simp only []
    omega
  · rfl

/-- After at most two consume_batch calls the consumer has drained every
element that was visible at the first call: the read cursor reaches the
write cursor. -/
theorem consume_twice_empty (k : Nat) (s : StackRing (2 ^ k))
    (hwf : WF (2 ^ k) s) :
    buffered (2 ^ k) (consumeBatch (2 ^ k) (consumeBatch (2 ^ k) s).1).1 = [] := by
  have hN : 0 < 2 ^ k := Nat.pos_pow_of_pos k (by norm_num)
  obtain ⟨hwr, hcnt⟩ := hwf
  have hrlt : s.read % 2 ^ k < 2 ^ k := Nat.mod_lt _ hN
  have h1w := consumeBatch_write (2 ^ k) s
  have h1r := consumeBatch_read (2 ^ k) s
  rw [mask_eq_mod] at h1r
  have h2w := consumeBatch_write (2 ^ k) (consumeBatch (2 ^ k) s).1
  have h2r := consumeBatch_read (2 ^ k) (consumeBatch (2 ^ k) s).1
  rw [mask_eq_mod] at h2r
  suffices hsuff : (consumeBatch (2 ^ k) (consumeBatch (2 ^ k) s).1).1.write -
      (consumeBatch (2 ^ k) (consumeBatch (2 ^ k) s).1).1.read = 0 by
    simp [buffered, hsuff]
  rw [h2w, h1w, h2r, h1r, h1w]
  by_cases hA : s.write - s.read ≤ 2 ^ k - s.read % 2 ^ k
  · have h1 : min (s.write - s.read) (2 ^ k - s.read % 2 ^ k) =
        s.write - s.read := Nat.min_eq_left hA
    rw [h1]
    omega
  · have h1 : min (s.write - s.read) (2 ^ k - s.read % 2 ^ k) =
        2 ^ k - s.read % 2 ^ k := Nat.min_eq_right (by omega)
    rw [h1]
    have hdm := Nat.div_add_mod s.read (2 ^ k)
    have hr1 : s.read + (2 ^ k - s.read % 2 ^ k) =
        2 ^ k * (s.read / 2 ^ k + 1) := by
      have hmul : 2 ^ k * (s.read / 2 ^ k + 1) =
          2 ^ k * (s.read / 2 ^ k) + 2 ^ k := by ring
      omega
    rw [hr1, Nat.mul_mod_right]
    omega

/-- One interleaving step of the single-producer/single-consumer
discipline, instrumented with ghost logs: comm is the list of all element
values committed so far (in commit order) and cons the list of all values
delivered to the consume_batch action so far (in delivery order).
A produce step is a successful reserve followed by writing the values
through the granted span and committing their count (as the driver does);
a consume step is one consume_batch call. -/
inductive Step (N : Nat) :
    StackRing N × List Nat × List Nat →
    StackRing N × List Nat × List Nat → Prop
  | produce (s : StackRing N) (comm cons : List Nat) (r idx g : Nat)
      (vals : List Nat) (hres : reserve N s r = some (idx, g))
      (hpos : 0 < vals.length) (hlen : vals.length ≤ g) :
      Step N (s, comm, cons)
        (commit N { s with storage := writeVals N s.storage idx vals }
          vals.length, comm ++ vals, cons)
  | consume (s : StackRing N) (comm cons : List Nat) :
      Step N (s, comm, cons)
        ((consumeBatch N s).1, comm, cons ++ (consumeBatch N s).2)

/-- The delivery invariant: the ring state is well formed and the
committed log splits as the delivered log followed by the elements still
buffered in the ring. -/
def Inv (N : Nat) (t : StackRing N × List Nat × List Nat) : Prop :=
  WF N t.1 ∧ t.2.1 = t.2.2 ++ buffered N t.1

theorem step_preserves_inv (k : Nat)
    (t u : StackRing (2 ^ k) × List Nat × List Nat)
    (hstep : Step (2 ^ k) t u) (hinv : Inv (2 ^ k) t) : Inv (2 ^ k) u := by
  obtain ⟨hwf, hlog⟩ := hinv
  cases hstep with
  | produce s comm cons r idx g vals hres hpos hlen =>
    obtain ⟨hgr, hga, hgc, hav, hidx⟩ := reserve_bounds _ s r idx g hres
    have hva : avail (2 ^ k) s = 2 ^ k - (s.write - s.read) := rfl
    rw [hva] at hga hav
    obtain ⟨hwr, hcnt⟩ := hwf
    have hwr2 : s.read ≤ s.write := hwr
    have hcnt2 : s.write - s.read ≤ 2 ^ k := hcnt
    constructor
    · refine ⟨?_, ?_⟩
      · show s.read ≤ s.write + vals.length
        omega
      · show s.write + vals.length - s.read ≤ 2 ^ k
        omega
    · simp only at hlog ⊢
      rw [buffered_produce k s r idx g vals hres hlen ⟨hwr2, hcnt2⟩, hlog,
        List.append_assoc]
  | consume s comm cons =>
    obtain ⟨hwr, hcnt⟩ := hwf
    have hwr2 : s.read ≤ s.write := hwr
    have hcnt2 : s.write - s.read ≤ 2 ^ k := hcnt
    have h1w := consumeBatch_write (2 ^ k) s
    have h1r := consumeBatch_read (2 ^ k) s
    constructor
    · refine ⟨?_, ?_⟩
      · show ((consumeBatch (2 ^ k) s).1).read ≤
          ((consumeBatch (2 ^ k) s).1).write
        rw [h1w, h1r]
        omega
      · show ((consumeBatch (2 ^ k) s).1).write -
          ((consumeBatch (2 ^ k) s).1).read ≤ 2 ^ k
        rw [h1w, h1r]
        omega
    · simp only at hlog ⊢
      rw [hlog, buffered_consume k s ⟨hwr2, hcnt2⟩, List.append_assoc]

theorem reachable_inv (k : Nat)
    (t : StackRing (2 ^ k) × List Nat × List Nat)
    (h : Relation.ReflTransGen (Step (2 ^ k))
      (StackRing.new (2 ^ k), [], []) t) : Inv (2 ^ k) t := by
  induction h with
  | refl =>
    refine ⟨⟨Nat.le_refl _, by simp [StackRing.new]⟩, ?_⟩
    simp [buffered, StackRing.new]
  | tail hsteps hstep ih =>
    exact step_preserves_inv k _ _ hstep ih

/-- C2: in any interleaving of produce (reserve, write, commit) and
consume_batch steps under the SPSC discipline, starting from a fresh ring,
the delivered log is always a proper splitting of the committed log: the
committed log equals the delivered log followed by the elements still in
the ring, so no committed element is lost, none is duplicated, and
delivery happens in exact commit (FIFO) order; moreover at most two
further consume_batch calls deliver everything that was committed. -/
theorem C2_exactly_once_fifo (k : Nat) (s : StackRing (2 ^ k))
    (comm cons : List Nat)
    (h : Relation.ReflTransGen (Step (2 ^ k))
      (StackRing.new (2 ^ k), [], []) (s, comm, cons)) :
    comm = cons ++ buffered (2 ^ k) s ∧
    (∃ rest, comm = cons ++ rest) ∧
    (cons ++ (consumeBatch (2 ^ k) s).2) ++
      (consumeBatch (2 ^ k) (consumeBatch (2 ^ k) s).1).2 = comm := by
  obtain ⟨hwf, hlog⟩ := reachable_inv k (s, comm, cons) h
  have hwf2 : WF (2 ^ k) s := hwf
  have hlog2 : comm = cons ++ buffered (2 ^ k) s := hlog
  refine ⟨hlog2, ⟨buffered (2 ^ k) s, hlog2⟩, ?_⟩
  have h2 : Relation.ReflTransGen (Step (2 ^ k))
      (StackRing.new (2 ^ k), [], [])
      ((consumeBatch (2 ^ k) (consumeBatch (2 ^ k) s).1).1, comm,
        (cons ++ (consumeBatch (2 ^ k) s).2) ++
          (consumeBatch (2 ^ k) (consumeBatch (2 ^ k) s).1).2) := by
    have hstep1 : Step (2 ^ k) (s, comm, cons)
        ((consumeBatch (2 ^ k) s).1, comm,
          cons ++ (consumeBatch (2 ^ k) s).2) :=
      Step.consume s comm cons
    have hstep2 : Step (2 ^ k)
        ((consumeBatch (2 ^ k) s).1, comm,
          cons ++ (consumeBatch (2 ^ k) s).2)
        ((consumeBatch (2 ^ k) (consumeBatch (2 ^ k) s).1).1, comm,
          (cons ++ (consumeBatch (2 ^ k) s).2) ++
            (consumeBatch (2 ^ k) (consumeBatch (2 ^ k) s).1).2) :=
      Step.consume (consumeBatch (2 ^ k) s).1 comm
        (cons ++ (consumeBatch (2 ^ k) s).2)
    exact Relation.ReflTransGen.tail (Relation.ReflTransGen.tail h hstep1)
      hstep2
  obtain ⟨hwfB, hlog3⟩ := reachable_inv k _ h2
  have hlog4 : comm =
      ((cons ++ (consumeBatch (2 ^ k) s).2) ++
        (consumeBatch (2 ^ k) (consumeBatch (2 ^ k) s).1).2) ++
        buffered (2 ^ k)
          (consumeBatch (2 ^ k) (consumeBatch (2 ^ k) s).1).1 := hlog3
  rw [consume_twice_empty k s hwf2, List.append_nil] at hlog4
  exact hlog4.symm

/-- Ring state of capacity 2^3 obtained from a fresh ring by one produce
step committing the values 4, 5, 6. -/
def demoState : StackRing (2 ^ 3) :=
  commit (2 ^ 3)
    { StackRing.new (2 ^ 3) with
      storage := writeVals (2 ^ 3) (StackRing.new (2 ^ 3)).storage 0 [4, 5, 6] }
    3

/-- Witness for C2: produce the values 4, 5, 6 on a fresh ring of
capacity 2^3, then run one consume_batch step. -/
theorem C2_exactly_once_fifo_witness :
    [4, 5, 6] = ((consumeBatch (2 ^ 3) demoState).2 ++
      buffered (2 ^ 3) (consumeBatch (2 ^ 3) demoState).1) ∧
    (∃ rest, ([4, 5, 6] : List Nat) =
      (consumeBatch (2 ^ 3) demoState).2 ++ rest) ∧
    ((consumeBatch (2 ^ 3) demoState).2 ++
        (consumeBatch (2 ^ 3) (consumeBatch (2 ^ 3) demoState).1).2) ++
      (consumeBatch (2 ^ 3)
        (consumeBatch (2 ^ 3) (consumeBatch (2 ^ 3) demoState).1).1).2 =
      [4, 5, 6] := by
  have hstep1 : Step (2 ^ 3) (StackRing.new (2 ^ 3), [], [])
      (demoState, [4, 5, 6], []) :=
    Step.produce (StackRing.new (2 ^ 3)) [] [] 3 0 3 [4, 5, 6]
      (by decide) (by decide) (by decide)
  have hstep2 : Step (2 ^ 3) (demoState, [4, 5, 6], [])
      ((consumeBatch (2 ^ 3) demoState).1, [4, 5, 6],
        (consumeBatch (2 ^ 3) demoState).2) :=
    Step.consume demoState [4, 5, 6] []
  exact C2_exactly_once_fifo 3 (consumeBatch (2 ^ 3) demoState).1
    [4, 5, 6] (consumeBatch (2 ^ 3) demoState).2
    (Relation.ReflTransGen.tail (Relation.ReflTransGen.single hstep1) hstep2)

/-! Embedding of the benchmark driver, src/rust_impl/src/bin/bench.rs. -/

/-- bench.rs line 7: MSG = 500_000_000 messages per producer. -/
def MSG : Nat := 500000000

/-- bench.rs line 8: BATCH = 32768. -/
def BATCH : Nat := 32768

/-- bench.rs line 9: RING_SIZE = 1 <<< 16 slots. -/
def RING_SIZE : Nat := 1 <<< 16

/-- Element values are u32 in bench.rs, so casts reduce modulo 2^32. -/
def U32 : Nat := 2 ^ 32

/-- Outcome of one iteration of the consumer loop in run_test. -/
inductive ConsumerAction where
  | proceed
  | exitLoop
  | spin
deriving DecidableEq

/-- The consumer loop body of run_test (bench.rs lines 75-85): n is the
count just returned by consume_batch, closed and empty are the values the
branch would observe from is_closed() and is_empty().  If n > 0 the
running count advances and the loop continues; otherwise, if the ring is
observed closed and then empty, the loop exits; otherwise the thread
issues a spin hint and retries. -/
def consumerLoopBody (count n : Nat) (closed empty : Bool) :
    Nat × ConsumerAction :=
  if n > 0 then (count + n, ConsumerAction.proceed)
  else if closed && empty then (count, ConsumerAction.exitLoop)
  else (count, ConsumerAction.spin)

/-- C3: the consumer loop exits exactly when consume_batch has returned 0
and then is_closed() and is_empty() are both observed true; when the
closed check fails the empty observation is not consulted (the body
yields spin whatever it is), so closed is checked before empty; and on a
well-formed ring is_empty() is true exactly when no
committed-but-unconsumed element remains visible. -/
theorem C3_consumer_exit_condition (count n : Nat) (closed empty e : Bool)
    (k : Nat) (s : StackRing (2 ^ k)) (hrw : s.read ≤ s.write) :
    ((consumerLoopBody count n closed empty).2 = ConsumerAction.exitLoop ↔
      n = 0 ∧ closed = true ∧ empty = true) ∧
    consumerLoopBody count 0 false e = (count, ConsumerAction.spin) ∧
    (is_empty (2 ^ k) s = true ↔ buffered (2 ^ k) s = []) := by
  refine ⟨?_, by simp [consumerLoopBody], ?_, ?_⟩
  · constructor
    · intro hexit
      unfold consumerLoopBody at hexit
      by_cases hn : n > 0
      · simp [hn] at hexit
      · by_cases hce : closed && empty
        · simp [hn, hce] at hexit ⊢
          constructor
          · omega
          · exact Bool.and_eq_true_iff.mp hce
        · simp [hn, hce] at hexit
    · rintro ⟨hn, hc, he⟩
      simp [consumerLoopBody, hn, hc, he]
  · intro hemp
    have hrweq : s.read = s.write := by
      simpa [is_empty] using hemp
    simp [buffered, hrweq]
  · intro hb
    have hz : s.write - s.read = 0 := by
      by_contra hne
      have hlen := congrArg List.length hb
      simp [buffered] at hlen
      omega
    simp only [is_empty, beq_iff_eq]
    omega

/-- Witness for C3 at count 1, a zero consume count, closed and empty
observed true, on a fresh ring of capacity 2^0. -/
theorem C3_consumer_exit_condition_witness :
    ((consumerLoopBody 1 0 true true).2 = ConsumerAction.exitLoop ↔
      0 = 0 ∧ true = true ∧ true = true) ∧
    consumerLoopBody 1 0 false false = (1, ConsumerAction.spin) ∧
    (is_empty (2 ^ 0) (StackRing.new (2 ^ 0)) = true ↔
      buffered (2 ^ 0) (StackRing.new (2 ^ 0)) = []) :=
  C3_consumer_exit_condition 1 0 true true false 0 (StackRing.new (2 ^ 0))
    (by decide)

/-- Events emitted by the producer loop of run_test, in program order. -/
inductive PEvent where
  | reserveEv (request : Nat) (granted : Option Nat)
  | writeEv (vals : List Nat)
  | commitEv (len : Nat)
  | closeEv
  | spinEv
deriving DecidableEq

/-- The producer loop of run_test (bench.rs lines 99-115), driven by an
oracle list of reserve outcomes (none for a failed reserve, some len for
a granted span of length len).  Returns the emitted event trace, the
final value of sent, and whether the loop ran to completion (true) or
the oracle was exhausted first (false).  Each
iteration with sent < msg requests want = min batch (msg - sent); on a
grant of len the producer writes the values (sent + j) cast to u32 for
j < len, commits len and advances sent by len; on a failed reserve it
spins; once sent reaches msg the loop ends and close() is called. -/
def producerRun (msg batch : Nat) : Nat → List (Option Nat) →
    List PEvent × Nat × Bool
  | sent, [] =>
    if sent < msg then ([], sent, false)
    else ([PEvent.closeEv], sent, true)
  | sent, resp :: rest =>
    if sent < msg then
      match resp with
      | none =>
        let res := producerRun msg batch sent rest
        (PEvent.reserveEv (min batch (msg - sent)) none ::
          PEvent.spinEv :: res.1, res.2)
      | some len =>
        let res := producerRun msg batch (sent + len) rest
        (PEvent.reserveEv (min batch (msg - sent)) (some len) ::
          PEvent.writeEv
            ((List.range len).map (fun j => (sent + j) % U32)) ::
          PEvent.commitEv len :: res.1, res.2)
    else ([PEvent.closeEv], sent, true)

/-- C4: whenever the producer loop runs to completion, its event trace
ends with exactly one close event and every reserve, write and commit
event precedes it; while the loop is still running (oracle exhausted
before completion) no close event has been emitted at all. -/
theorem C4_close_once_last (msg batch sent : Nat)
    (responses : List (Option Nat)) :
    ((producerRun msg batch sent responses).2.2 = true →
      ∃ pre, (producerRun msg batch sent responses).1 =
          pre ++ [PEvent.closeEv] ∧ PEvent.closeEv ∉ pre) ∧
    ((producerRun msg batch sent responses).2.2 = false →
      PEvent.closeEv ∉ (producerRun msg batch sent responses).1) := by
  induction responses generalizing sent with
  | nil =>
    by_cases h : sent < msg
    · simp [producerRun, h]
    · simp [producerRun, h]
  | cons resp rest ih =>
    by_cases h : sent < msg
    · match resp with
      | none =>
        obtain ⟨ih1, ih2⟩ := ih sent
        constructor
        · intro hfin
          simp only [producerRun, h, if_pos] at hfin ⊢
          obtain ⟨pre, hpre, hnot⟩ := ih1 hfin
          refine ⟨PEvent.reserveEv (min batch (msg - sent)) none ::
            PEvent.spinEv :: pre, ?_, ?_⟩
          · simp [hpre]
          · simp [hnot]
        · intro hfin
          simp only [producerRun, h, if_pos] at hfin ⊢
          have hnot := ih2 hfin
          simp [hnot]
      | some len =>
        obtain ⟨ih1, ih2⟩ := ih (sent + len)
        constructor
        · intro hfin
          simp only [producerRun, h, if_pos] at hfin ⊢
          obtain ⟨pre, hpre, hnot⟩ := ih1 hfin
          refine ⟨PEvent.reserveEv (min batch (msg - sent)) (some len) ::
            PEvent.writeEv
              ((List.range len).map (fun j => (sent + j) % U32)) ::
            PEvent.commitEv len :: pre, ?_, ?_⟩
          · simp [hpre]
          · simp [hnot]
        · intro hfin
          simp only [producerRun, h, if_pos] at hfin ⊢
          have hnot := ih2 hfin
          simp [hnot]
    · constructor
      · intro _
        simp [producerRun, h]
      · intro hfin
        simp [producerRun, h] at hfin

/-- Witness for C4: a completed run of three messages in grants of two
and one ends in a single final close event, and an exhausted run has no
close event. -/
theorem C4_close_once_last_witness :
    (∃ pre, (producerRun 3 2 0 [some 2, some 1]).1 =
        pre ++ [PEvent.closeEv] ∧ PEvent.closeEv ∉ pre) ∧
    PEvent.closeEv ∉ (producerRun 3 2 0 [none]).1 :=
  ⟨(C4_close_once_last 3 2 0 [some 2, some 1]).1 (by decide),
   (C4_close_once_last 3 2 0 [none]).2 (by decide)⟩

theorem producerRun_le_final (msg batch sent : Nat)
    (responses : List (Option Nat)) :
    sent ≤ (producerRun msg batch sent responses).2.1 := by
  induction responses generalizing sent with
  | nil =>
    by_cases h : sent < msg <;> simp [producerRun, h]
  | cons resp rest ih =>
    by_cases h : sent < msg
    · match resp with
      | none =>
        simpa [producerRun, h] using ih sent
      | some len =>
        have := ih (sent + len)
        simp only [producerRun, h, if_pos]
        omega
    · simp [producerRun, h]

theorem producerRun_finished_ge (msg batch sent : Nat)
    (responses : List (Option Nat))
    (hfin : (producerRun msg batch sent responses).2.2 = true) :
    msg ≤ (producerRun msg batch sent responses).2.1 := by
  induction responses generalizing sent with
  | nil =>
    by_cases h : sent < msg
    · simp [producerRun, h] at hfin
    · simp [producerRun, h]
      omega
  | cons resp rest ih =>
    by_cases h : sent < msg
    · match resp with
      | none =>
        simp only [producerRun, h, if_pos] at hfin ⊢
        exact ih sent hfin
      | some len =>
        simp only [producerRun, h, if_pos] at hfin ⊢
        exact ih (sent + len) hfin
    · simp [producerRun, h]
      omega

/-- Total number of elements committed along a producer trace. -/
def commitTotal : List PEvent → Nat
  | [] => 0
  | PEvent.commitEv l :: evs => l + commitTotal evs
  | PEvent.reserveEv _ _ :: evs => commitTotal evs
  | PEvent.writeEv _ :: evs => commitTotal evs
  | PEvent.closeEv :: evs => commitTotal evs
  | PEvent.spinEv :: evs => commitTotal evs

theorem producerRun_commitTotal (msg batch sent : Nat)
    (responses : List (Option Nat)) :
    commitTotal (producerRun msg batch sent responses).1 =
      (producerRun msg batch sent responses).2.1 - sent := by
  induction responses generalizing sent with
  | nil =>
    by_cases h : sent < msg <;> simp [producerRun, h, commitTotal]
  | cons resp rest ih =>
    by_cases h : sent < msg
    · match resp with
      | none =>
        simp only [producerRun, h, if_pos, commitTotal]
        exact ih sent
      | some len =>
        have hmono := producerRun_le_final msg batch (sent + len) rest
        simp only [producerRun, h, if_pos, commitTotal]
        rw [ih (sent + len)]
        omega
    · simp [producerRun, h, commitTotal]

/-- The reserve outcomes an actual ring can produce for this driver: each
granted length is at most the just-requested length
min batch (msg - sent). -/
def goodResponses (msg batch : Nat) : Nat → List (Option Nat) → Bool
  | _, [] => true
  | sent, none :: rest => goodResponses msg batch sent rest
  | sent, some len :: rest =>
    decide (len ≤ min batch (msg - sent)) &&
      goodResponses msg batch (sent + len) rest

theorem producerRun_le_msg (msg batch sent : Nat)
    (responses : List (Option Nat)) (hsent : sent ≤ msg)
    (hgood : goodResponses msg batch sent responses = true) :
    (producerRun msg batch sent responses).2.1 ≤ msg := by
  induction responses generalizing sent with
  | nil =>
    by_cases h : sent < msg <;> simp [producerRun, h] <;> omega
  | cons resp rest ih =>
    by_cases h : sent < msg
    · match resp with
      | none =>
        simp only [goodResponses] at hgood
        simpa [producerRun, h] using ih sent hsent hgood
      | some len =>
        simp only [goodResponses, Bool.and_eq_true, decide_eq_true_eq]
          at hgood
        obtain ⟨hlen, hgood2⟩ := hgood
        simp only [producerRun, h, if_pos]
        exact ih (sent + len) (by omega) hgood2
    · simp [producerRun, h]
      omega

/-- C8: starting from any sent at most MSG, and assuming reserve never
grants more than the requested length, the producer loop of run_test
keeps sent at most MSG = 500,000,000 after every iteration, and when the
loop completes and close() is reached the producer has committed exactly
MSG - sent further elements, reaching sent = MSG. -/
theorem C8_producer_sent_invariant (sent : Nat)
    (responses : List (Option Nat)) (hsent : sent ≤ MSG)
    (hgood : goodResponses MSG BATCH sent responses = true) :
    (producerRun MSG BATCH sent responses).2.1 ≤ MSG ∧
    ((producerRun MSG BATCH sent responses).2.2 = true →
      (producerRun MSG BATCH sent responses).2.1 = MSG ∧
      commitTotal (producerRun MSG BATCH sent responses).1 = MSG - sent) := by
  have hle := producerRun_le_msg MSG BATCH sent responses hsent hgood
  refine ⟨hle, ?_⟩
  intro hfin
  have hge := producerRun_finished_ge MSG BATCH sent responses hfin
  have heq : (producerRun MSG BATCH sent responses).2.1 = MSG := by omega
  refine ⟨heq, ?_⟩
  rw [producerRun_commitTotal, heq]

/-- Witness for C8 with a completed two-grant oracle; goodResponses holds
and the hypotheses are discharged by evaluation. -/
theorem C8_producer_sent_invariant_witness :
    (producerRun MSG BATCH 0 [some 32768, some 32768]).2.1 ≤ MSG ∧
    ((producerRun MSG BATCH 0 [some 32768, some 32768]).2.2 = true →
      (producerRun MSG BATCH 0 [some 32768, some 32768]).2.1 = MSG ∧
      commitTotal (producerRun MSG BATCH 0 [some 32768, some 32768]).1 =
        MSG - 0) :=
  C8_producer_sent_invariant 0 [some 32768, some 32768]
    (Nat.zero_le _) (by decide)

/-- Concatenation of all element values written along a producer trace,
in program order. -/
def writesConcat : List PEvent → List Nat
  | [] => []
  | PEvent.writeEv vs :: evs => vs ++ writesConcat evs
  | PEvent.reserveEv _ _ :: evs => writesConcat evs
  | PEvent.commitEv _ :: evs => writesConcat evs
  | PEvent.closeEv :: evs => writesConcat evs
  | PEvent.spinEv :: evs => writesConcat evs

theorem producerRun_writes (msg batch sent : Nat)
    (responses : List (Option Nat)) :
    writesConcat (producerRun msg batch sent responses).1 =
      (List.range ((producerRun msg batch sent responses).2.1 - sent)).map
        (fun i => (sent + i) % U32) := by
  induction responses generalizing sent with
  | nil =>
    by_cases h : sent < msg <;> simp [producerRun, h, writesConcat]
  | cons resp rest ih =>
    by_cases h : sent < msg
    · match resp with
      | none =>
        simp only [producerRun, h, if_pos, writesConcat]
        exact ih sent
      | some len =>
        have hmono := producerRun_le_final msg batch (sent + len) rest
        simp only [producerRun, h, if_pos, writesConcat]
        rw [ih (sent + len)]
        have hsplit : (producerRun msg batch (sent + len) rest).2.1 - sent =
            len + ((producerRun msg batch (sent + len) rest).2.1 -
              (sent + len)) := by omega
        rw [hsplit, List.range_add, List.map_append, List.map_map]
        congr 1
        refine List.map_congr_left ?_
        intro i hi
        simp only [Function.comp]
        have harith : sent + (len + i) = sent + len + i := by omega
        rw [harith]
    · simp [producerRun, h, writesConcat]

/-- C9: every value the producer writes is (sent + j) reduced modulo
2^32, and along any run obeying the grant bound the written values from
sent = 0 are exactly 0, 1, ..., final sent - 1 with no wraparound
truncation; in particular a completed run writes exactly the sequence
0, ..., MSG - 1. -/
theorem C9_values_exact_sequence (responses : List (Option Nat))
    (hgood : goodResponses MSG BATCH 0 responses = true) :
    writesConcat (producerRun MSG BATCH 0 responses).1 =
      List.range (producerRun MSG BATCH 0 responses).2.1 ∧
    ((producerRun MSG BATCH 0 responses).2.2 = true →
      writesConcat (producerRun MSG BATCH 0 responses).1 =
        List.range MSG) := by
  have hle := producerRun_le_msg MSG BATCH 0 responses (Nat.zero_le _) hgood
  have hw := producerRun_writes MSG BATCH 0 responses
  have hfirst : writesConcat (producerRun MSG BATCH 0 responses).1 =
      List.range (producerRun MSG BATCH 0 responses).2.1 := by
    rw [hw, Nat.sub_zero]
    have hid : ∀ i ∈ List.range (producerRun MSG BATCH 0 responses).2.1,
        (0 + i) % U32 = i := by
      intro i hi
      rw [List.mem_range] at hi
      rw [Nat.zero_add]
      refine Nat.mod_eq_of_lt ?_
      have hmu : MSG < U32 := by decide
      omega
    rw [List.map_congr_left hid]
    exact List.map_id _
  refine ⟨hfirst, ?_⟩
  intro hfin
  have hge := producerRun_finished_ge MSG BATCH 0 responses hfin
  have heq : (producerRun MSG BATCH 0 responses).2.1 = MSG := by omega
  rw [hfirst, heq]

/-- Witness for C9 with the empty oracle. -/
theorem C9_values_exact_sequence_witness :
    writesConcat (producerRun MSG BATCH 0 []).1 =
      List.range (producerRun MSG BATCH 0 []).2.1 ∧
    ((producerRun MSG BATCH 0 []).2.2 = true →
      writesConcat (producerRun MSG BATCH 0 []).1 = List.range MSG) :=
  C9_values_exact_sequence [] (by decide)

/-- Scans a producer trace while tracking the most recently granted
length, checking that every commit event passes a positive length equal
to that grant (so 0 < written_len and written_len is at most the grant),
and that no commit happens without a successful reserve before it. -/
def commitsMatchGrants : Option Nat → List PEvent → Bool
  | _, [] => true
  | _, PEvent.reserveEv _ (some l) :: evs =>
    commitsMatchGrants (some l) evs
  | _, PEvent.reserveEv _ none :: evs => commitsMatchGrants none evs
  | g, PEvent.commitEv l :: evs =>
    (match g with
     | some l2 => decide (l = l2 ∧ 0 < l)
     | none => false) && commitsMatchGrants none evs
  | g, PEvent.writeEv _ :: evs => commitsMatchGrants g evs
  | g, PEvent.closeEv :: evs => commitsMatchGrants g evs
  | g, PEvent.spinEv :: evs => commitsMatchGrants g evs

/-- C5: the driver always meets the core preconditions — every reserve
event in the producer trace requests at least 1 element (the request is
min BATCH (MSG - sent) with sent < MSG and BATCH at least 1), and —
granted spans being non-empty — every commit event passes exactly the
length just granted, so 0 < written_len and written_len is at most the
granted length at every commit. -/
theorem C5_driver_meets_preconditions (msg batch sent : Nat)
    (responses : List (Option Nat)) (hbatch : 1 ≤ batch)
    (hpos : ∀ len, some len ∈ responses → 0 < len) :
    (∀ req g, PEvent.reserveEv req g ∈
        (producerRun msg batch sent responses).1 → 1 ≤ req) ∧
    commitsMatchGrants none (producerRun msg batch sent responses).1 =
      true := by
  induction responses generalizing sent with
  | nil =>
    by_cases h : sent < msg
    · simp [producerRun, h, commitsMatchGrants]
    · simp [producerRun, h, commitsMatchGrants]
  | cons resp rest ih =>
    by_cases h : sent < msg
    · match resp with
      | none =>
        have hpos2 : ∀ len, some len ∈ rest → 0 < len := by
          intro len hmem
          exact hpos len (List.mem_cons_of_mem _ hmem)
        obtain ⟨ih1, ih2⟩ := ih sent hpos2
        constructor
        · intro req g hmem
          simp only [producerRun, h, if_pos, List.mem_cons] at hmem
          rcases hmem with hmem | hmem | hmem
          · have hreq : req = min batch (msg - sent) := by
              injection hmem
            omega
          · exact absurd hmem (by simp)
          · exact ih1 req g hmem
        · simp only [producerRun, h, if_pos, commitsMatchGrants]
          exact ih2
      | some len =>
        have hpos2 : ∀ l2, some l2 ∈ rest → 0 < l2 := by
          intro l2 hmem
          exact hpos l2 (List.mem_cons_of_mem _ hmem)
        have hlenpos : 0 < len := hpos len (List.mem_cons_self _ _)
        obtain ⟨ih1, ih2⟩ := ih (sent + len) hpos2
        constructor
        · intro req g hmem
          simp only [producerRun, h, if_pos, List.mem_cons] at hmem
          rcases hmem with hmem | hmem | hmem | hmem
          · have hreq : req = min batch (msg - sent) := by
              injection hmem
            omega
          · exact absurd hmem (by simp)
          · exact absurd hmem (by simp)
          · exact ih1 req g hmem
        · simp only [producerRun, h, if_pos, commitsMatchGrants]
          simp only [Bool.and_eq_true, decide_eq_true_eq]
          refine ⟨?_, ih2⟩
          simp [hlenpos]
    · constructor
      · intro req g hmem
        simp [producerRun, h] at hmem
      · simp [producerRun, h, commitsMatchGrants]

/-- Witness for C5 with batch 2, three messages and grants 2 and 1. -/
theorem C5_driver_meets_preconditions_witness :
    (∀ req g, PEvent.reserveEv req g ∈
        (producerRun 3 2 0 [some 2, some 1]).1 → 1 ≤ req) ∧
    commitsMatchGrants none (producerRun 3 2 0 [some 2, some 1]).1 =
      true :=
  C5_driver_meets_preconditions 3 2 0 [some 2, some 1] (by decide)
    (by
      intro len hmem
      simp at hmem
      rcases hmem with h | h <;> omega)

/-- Outcome of one iteration of the producer loop in run_test. -/
inductive ProducerAction where
  | wrote (len : Nat)
  | spin
deriving DecidableEq

/-- The producer loop body of run_test (bench.rs lines 100-112): on a
granted reservation of length len the producer writes, commits and
advances sent by len; on a failed reserve it leaves sent unchanged and
issues a spin hint. -/
def producerLoopBody (sent : Nat) (response : Option Nat) :
    Nat × ProducerAction :=
  match response with
  | some len => (sent + len, ProducerAction.wrote len)
  | none => (sent, ProducerAction.spin)

/-- C6: the driver treats the sentinel results as retry signals, not as
errors — on a failed reserve the producer leaves sent unchanged and
spins; when consume_batch reports 0 and the ring is not yet
closed-and-empty the consumer leaves its count unchanged and spins — and
the core calls themselves perform no internal retry: reserve on a full
ring returns the absent-span sentinel without touching any state, and
consume_batch on an empty ring returns count 0 with the state
unchanged. -/
theorem C6_sentinels_are_retry_signals (k sent count : Nat)
    (s sFull : StackRing (2 ^ k)) (r : Nat) (closed empty : Bool)
    (hfull : avail (2 ^ k) sFull = 0) (hempty : s.write - s.read = 0)
    (hnotdone : (closed && empty) = false) :
    producerLoopBody sent none = (sent, ProducerAction.spin) ∧
    reserve (2 ^ k) sFull r = none ∧
    consumeBatch (2 ^ k) s = (s, []) ∧
    consumerLoopBody count 0 closed empty =
      (count, ConsumerAction.spin) := by
  refine ⟨rfl, ?_, ?_, ?_⟩
  · simp [reserve, hfull]
  · simp [consumeBatch, hempty]
  · simp [consumerLoopBody, hnotdone]

/-- A ring of capacity 2^0 = 1 holding one uncommitted slot: full. -/
def demoFull : StackRing (2 ^ 0) :=
  commit (2 ^ 0) (StackRing.new (2 ^ 0)) 1

/-- Witness for C6 on a full one-slot ring and a fresh empty ring. -/
theorem C6_sentinels_are_retry_signals_witness :
    producerLoopBody 5 none = (5, ProducerAction.spin) ∧
    reserve (2 ^ 0) demoFull 1 = none ∧
    consumeBatch (2 ^ 0) (StackRing.new (2 ^ 0)) =
      (StackRing.new (2 ^ 0), []) ∧
    consumerLoopBody 7 0 false true = (7, ConsumerAction.spin) :=
  C6_sentinels_are_retry_signals 0 5 7 (StackRing.new (2 ^ 0)) demoFull 1
    false true (by decide) (by decide) (by decide)

/-- A thread spawned by run_test: the index of the ring it captures and
the cpu id it would pin to. -/
structure ThreadSpec where
  ringIdx : Nat
  cpu : Nat
deriving DecidableEq

/-- run_test (bench.rs lines 56-58): one ring per producer/consumer
pair. -/
def ringsOf (num_pairs : Nat) : List Nat := List.range num_pairs

/-- run_test (bench.rs lines 66-89): consumer thread i captures rings[i]
and pins to cpu num_pairs + i. -/
def consumerThreads (num_pairs : Nat) : List ThreadSpec :=
  (List.range num_pairs).map (fun i => { ringIdx := i, cpu := num_pairs + i })

/-- run_test (bench.rs lines 93-116): producer thread i captures rings[i]
and pins to cpu i. -/
def producerThreads (num_pairs : Nat) : List ThreadSpec :=
  (List.range num_pairs).map (fun i => { ringIdx := i, cpu := i })

theorem thread_ring_unique (n r : Nat) (c : Nat → Nat) (hr : r < n) :
    (((List.range n).map
      (fun i => ({ ringIdx := i, cpu := c i } : ThreadSpec))).filter
      (fun t => t.ringIdx == r)).length = 1 := by
  rw [← List.countP_eq_length_filter, List.countP_map]
  have hfun : ((fun t : ThreadSpec => t.ringIdx == r) ∘
      (fun i => ({ ringIdx := i, cpu := c i } : ThreadSpec))) =
      fun i => i == r := rfl
  rw [hfun]
  have hcount : (List.range n).count r = 1 :=
    List.count_eq_one_of_mem (List.nodup_range n) (List.mem_range.mpr hr)
  simpa [List.count] using hcount

/-- C7: run_test scales by composition only — it allocates exactly
num_pairs independent rings, and for each ring index r below num_pairs
exactly one producer thread and exactly one consumer thread capture ring
r; every thread captures an allocated ring, so no ring is shared between
two producers or two consumers. -/
theorem C7_one_ring_per_pair (n r : Nat) (hr : r < n) :
    (ringsOf n).length = n ∧
    (producerThreads n).length = n ∧
    (consumerThreads n).length = n ∧
    ((producerThreads n).filter (fun t => t.ringIdx == r)).length = 1 ∧
    ((consumerThreads n).filter (fun t => t.ringIdx == r)).length = 1 ∧
    (∀ t, t ∈ producerThreads n → t.ringIdx < n) ∧
    (∀ t, t ∈ consumerThreads n → t.ringIdx < n) := by
  refine ⟨by simp [ringsOf], by simp [producerThreads],
    by simp [consumerThreads],
    thread_ring_unique n r (fun i => i) hr,
    thread_ring_unique n r (fun i => n + i) hr, ?_, ?_⟩
  · intro t hmem
    simp only [producerThreads, List.mem_map, List.mem_range] at hmem
    obtain ⟨i, hi, hti⟩ := hmem
    rw [← hti]
    exact hi
  · intro t hmem
    simp only [consumerThreads, List.mem_map, List.mem_range] at hmem
    obtain ⟨i, hi, hti⟩ := hmem
    rw [← hti]
    exact hi

/-- Witness for C7 with four pairs and ring index 2. -/
theorem C7_one_ring_per_pair_witness :
    (ringsOf 4).length = 4 ∧
    (producerThreads 4).length = 4 ∧
    (consumerThreads 4).length = 4 ∧
    ((producerThreads 4).filter (fun t => t.ringIdx == 2)).length = 1 ∧
    ((consumerThreads 4).filter (fun t => t.ringIdx == 2)).length = 1 ∧
    (∀ t, t ∈ producerThreads 4 → t.ringIdx < 4) ∧
    (∀ t, t ∈ consumerThreads 4 → t.ringIdx < 4) :=
  C7_one_ring_per_pair 4 2 (by decide)

/-- pin_to_cpu from bench.rs lines 133-139: given the result of
get_core_ids() (none when the core list is unavailable) and cpu_id, the
result is the core the calling thread affinity was set to, or none when
the call did nothing.  The function is total and reports no error in
either case. -/
def pin_to_cpu (core_ids : Option (List Nat)) (cpu_id : Nat) :
    Option Nat :=
  match core_ids with
  | some ids =>
    if cpu_id < ids.length then some (ids.getD cpu_id 0) else none
  | none => none

/-- C10: pin_to_cpu is best-effort and total — with no core-id list it
does nothing; with a list but an out-of-range cpu_id it does nothing; it
sets affinity exactly when the list is available and cpu_id is a valid
index, and any affinity it sets comes from such a state. -/
theorem C10_pin_to_cpu_best_effort (core_ids : Option (List Nat))
    (cpu_id : Nat) :
    pin_to_cpu none cpu_id = none ∧
    (∀ ids, core_ids = some ids → ¬ cpu_id < ids.length →
      pin_to_cpu core_ids cpu_id = none) ∧
    (∀ ids, core_ids = some ids → cpu_id < ids.length →
      pin_to_cpu core_ids cpu_id = some (ids.getD cpu_id 0)) ∧
    (∀ c, pin_to_cpu core_ids cpu_id = some c →
      ∃ ids, core_ids = some ids ∧ cpu_id < ids.length ∧
        ids.getD cpu_id 0 = c) := by
  refine ⟨rfl, ?_, ?_, ?_⟩
  · intro ids hids hlt
    rw [hids]
    simp [pin_to_cpu, hlt]
  · intro ids hids hlt
    rw [hids]
    simp [pin_to_cpu, hlt]
  · intro c hc
    match core_ids with
    | none => simp [pin_to_cpu] at hc
    | some ids =>
      by_cases hlt : cpu_id < ids.length
      · simp [pin_to_cpu, hlt] at hc
        refine ⟨ids, rfl, hlt, ?_⟩
        rw [List.getD_eq_getElem _ _ hlt]
        exact hc
      · simp [pin_to_cpu, hlt] at hc

/-- Witness for C10 with a two-core list and cpu_id 1. -/
theorem C10_pin_to_cpu_best_effort_witness :
    pin_to_cpu none 1 = none ∧
    (∀ ids, some [3, 4] = some ids → ¬ 1 < ids.length →
      pin_to_cpu (some [3, 4]) 1 = none) ∧
    (∀ ids, some [3, 4] = some ids → 1 < ids.length →
      pin_to_cpu (some [3, 4]) 1 = some (ids.getD 1 0)) ∧
    (∀ c, pin_to_cpu (some [3, 4]) 1 = some c →
      ∃ ids, some [3, 4] = some ids ∧ 1 < ids.length ∧
        ids.getD 1 0 = c) :=
  C10_pin_to_cpu_best_effort (some [3, 4]) 1

end RingMpsc

